import Mathlib

/-!
# Verification of the node core against its specification

Shallow embedding of the core subsystems of the node:

* the consensus adapter (`core/consensus/src/adapter.rs`): proof verification
  (`verify_proof`, `verify_proof_weight`), header-linkage verification
  (`verify_block_header`) and the BFT status update (`update_status`,
  `set_overlord_handler`);
* the trie-backing key/value cache (`core/executor/src/adapter/trie_db.rs`):
  `insert`, `insert_batch`, `flush`, `rand_remove_list`, `inner_get`;
* the mempool admission pipeline (`core/mempool/src/lib.rs`): `insert_tx`,
  `initial_insert`, `ensure_order_txs`, `check_dup_order_hashes`.

External collaborators (storage, metadata control, the overlord crate's
`extract_voters`, the crypto helper, the network) are modelled as oracle
parameters.  Byte strings are abstracted as natural numbers (hashes, keys)
or lists of naturals (trie keys and values); machine integers that can never
overflow in the reachable range are modelled as `Nat`.
-/

namespace Consensus

/-- Byte strings (addresses, hashes, signatures) abstracted. -/
abbrev Bytes := Nat

/-- Block headers; only the fields the embedded operations inspect are kept,
the rest is opaque to the adapter code under verification. -/
structure Header where
  number : Nat
  deriving DecidableEq, Repr

structure Block where
  header : Header
  deriving DecidableEq, Repr

/-- `Proof {number, round, block_hash, bitmap, signature}`. The bitmap is kept
abstract as a list of booleans; it is only ever passed to the external
`extract_voters`. -/
structure Proof where
  number : Nat
  round : Nat
  block_hash : Bytes
  bitmap : List Bool
  signature : Bytes
  deriving DecidableEq, Repr

/-- A metadata verifier entry. -/
structure Verifier where
  pub_key : Bytes
  bls_pub_key : Bytes
  propose_weight : Nat
  vote_weight : Nat
  deriving DecidableEq, Repr

/-- Per-epoch metadata; only the fields `verify_proof` reads. -/
structure Metadata where
  version_start : Nat
  version_end : Nat
  verifier_list : List Verifier
  deriving DecidableEq, Repr

/-- Modelled from the spec: the protocol type `version: [start,end) block range`
(`metadata.version.contains(n)`) is membership in the half-open range; the
protocol crate's types are not among the provided sources. -/
def Metadata.versionContains (m : Metadata) (n : Nat) : Bool :=
  decide (m.version_start ≤ n) && decide (n < m.version_end)

/-- The overlord `Node` built from a verifier entry. -/
structure Node where
  address : Bytes
  propose_weight : Nat
  vote_weight : Nat
  deriving DecidableEq, Repr

inductive VoteType
  | Precommit
  deriving DecidableEq, Repr

/-- The vote whose canonical encoding is covered by the aggregate signature. -/
structure Vote where
  height : Nat
  round : Nat
  vote_type : VoteType
  block_hash : Bytes
  deriving DecidableEq, Repr

inductive BlockHeaderField
  | PreviousBlockHash
  deriving DecidableEq, Repr

inductive BlockProofField
  | HeightMismatch (block_number : Nat) (proof_number : Nat)
  | HashMismatch
  | BitMap
  | Signature
  | WeightNotFound
  | Weight
  | Validator
  deriving DecidableEq, Repr

inductive ConsensusError
  | VerifyProof (number : Nat) (field : BlockProofField)
  | ConfusedMetadata (version_start : Nat) (version_end : Nat)
  | VerifyBlockHeader (number : Nat) (field : BlockHeaderField)
  | StorageItemNotFound
  deriving DecidableEq, Repr

/-- Insertion into a `HashMap` modelled on an association list: a later insert
for an existing key overwrites its value, a fresh key is appended. -/
def mapInsert (m : List (Bytes × Nat)) (k : Bytes) (v : Nat) : List (Bytes × Nat) :=
  if (m.map Prod.fst).contains k then
    m.map (fun p => if p.1 = k then (k, v) else p)
  else
    m ++ [(k, v)]

/-- `HashMap::get` on the association-list model. -/
def mapLookup (m : List (Bytes × Nat)) (k : Bytes) : Option Nat :=
  (m.find? (fun p => decide (p.1 = k))).map Prod.snd

/-- `collect::<HashMap<_, _>>()` over a key/value iterator. -/
def hashMapOfList (l : List (Bytes × Nat)) : List (Bytes × Nat) :=
  l.foldl (fun m p => mapInsert m p.1 p.2) []

/-- The fold over `signed_voters` inside `verify_proof_weight`: looks every
signer up in the weight map and accumulates the weights; `none` when a signer
is missing from the map (the code's `Validator` error path). -/
def accumWeights (weight_map : List (Bytes × Nat)) : List Bytes → Option Nat
  | [] => some 0
  | v :: rest =>
    match mapLookup weight_map v with
    | some w => (accumWeights weight_map rest).map (fun acc => w + acc)
    | none => none

/-- `verify_proof_weight` (adapter.rs:575-619): sums the voting weight of the
signers, failing with `Validator` when a signer is not an authority, with
`Weight` when `3·accum ≤ 2·total`.  The code's `WeightNotFound` branch is dead
(`contains_key` is checked immediately before the `get`) and is not modelled. -/
def verify_proof_weight (block_number : Nat) (weight_map : List (Bytes × Nat))
    (signed_voters : List Bytes) : Except ConsensusError Unit :=
  let total := (weight_map.map Prod.snd).sum
  match accumWeights weight_map signed_voters with
  | none => .error (.VerifyProof block_number .Validator)
  | some accum =>
    if 3 * accum ≤ 2 * total then
      .error (.VerifyProof block_number .Weight)
    else
      .ok ()

/-- The authority list built from the metadata verifier list (adapter.rs:470-478). -/
def authorityNodes (md : Metadata) : List Node :=
  md.verifier_list.map (fun v => ⟨v.pub_key, v.propose_weight, v.vote_weight⟩)

/-- The weight map built from the authority list (adapter.rs:492-495).
`extract_voters` may permute `authority_list` in place before this map is
built; the map is insensitive to that permutation (same key/value set), so the
embedding builds it from the metadata order. -/
def weightMapOf (md : Metadata) : List (Bytes × Nat) :=
  hashMapOfList ((authorityNodes md).map (fun n => (n.address, n.vote_weight)))

/-- Oracles for the collaborators `verify_proof` calls out to:
the proposal encoding and hash, the metadata control, the overlord crate's
`extract_voters`, the crypto hash of the rlp-encoded vote, and the aggregate
BLS verification. -/
structure ProofOracles where
  proposalHash : Block → Bytes
  getMetadata : Header → Except ConsensusError Metadata
  extractVoters : List Node → List Bool → Option (List Bytes)
  cryptoHash : Vote → Bytes
  verifyAggSig : Bytes → List Bytes → Bytes → Bool

/-- The BLS public keys of the signed voters (adapter.rs:504-514). -/
def signedBlsKeys (md : Metadata) (signed_voters : List Bytes) : List Bytes :=
  md.verifier_list.filterMap (fun v =>
    if signed_voters.contains v.pub_key then some v.bls_pub_key else none)

/-- `verify_proof` (adapter.rs:428-534): genesis acceptance, height check, hash
check, metadata lookup and range check, bitmap expansion, weight check,
aggregate-signature check, in the source order. -/
def verify_proof (o : ProofOracles) (block : Block) (pf : Proof) :
    Except ConsensusError Unit :=
  if block.header.number = 0 then .ok ()
  else if block.header.number ≠ pf.number then
    .error (.VerifyProof block.header.number
      (.HeightMismatch block.header.number pf.number))
  else
    let proposal_hash := o.proposalHash block
    if proposal_hash ≠ pf.block_hash then
      .error (.VerifyProof block.header.number .HashMismatch)
    else
      match o.getMetadata block.header with
      | .error e => .error e
      | .ok metadata =>
        if !(metadata.versionContains block.header.number) then
          .error (.ConfusedMetadata metadata.version_start metadata.version_end)
        else
          match o.extractVoters (authorityNodes metadata) pf.bitmap with
          | none => .error (.VerifyProof block.header.number .BitMap)
          | some signed_voters =>
            let vote : Vote := ⟨pf.number, pf.round, .Precommit, pf.block_hash⟩
            match verify_proof_weight block.header.number (weightMapOf metadata)
                signed_voters with
            | .error e => .error e
            | .ok _ =>
              let vote_hash := o.cryptoHash vote
              if o.verifyAggSig vote_hash (signedBlsKeys metadata signed_voters)
                  pf.signature then
                .ok ()
              else
                .error (.VerifyProof block.header.number .Signature)

/-- Proposals: the fields `verify_block_header` inspects. -/
structure Proposal where
  number : Nat
  prev_hash : Bytes
  deriving DecidableEq, Repr

/-- `verify_block_header` (adapter.rs:399-425): loads the header at
`proposal.number - 1` (the storage is the `getHeader` oracle; a missing header
surfaces as `StorageItemNotFound` through `get_block_header_by_number`) and
compares its hash (the `headerHash` oracle stands for `Header::hash`) against
`proposal.prev_hash`. -/
def verify_block_header (getHeader : Nat → Option Header)
    (headerHash : Header → Bytes) (p : Proposal) : Except ConsensusError Unit :=
  match getHeader (p.number - 1) with
  | none => .error .StorageItemNotFound
  | some prev =>
    if headerHash prev ≠ p.prev_hash then
      .error (.VerifyBlockHeader p.number .PreviousBlockHash)
    else
      .ok ()

/-- The overlord handler held behind the adapter's write-once slot; opaque. -/
structure OverlordHandler where
  id : Nat
  deriving DecidableEq, Repr

structure ConsensusValidator where
  pub_key : Bytes
  propose_weight : Nat
  vote_weight : Nat
  deriving DecidableEq, Repr

/-- Modelled from the spec: `gen_overlord_status`
(`core/consensus/src/consensus.rs`, not among the provided sources) packages a
height and the timing configuration into the `RichStatus` payload sent to the
BFT engine; its first argument is the status height. -/
structure OverlordStatus where
  height : Nat
  consensus_interval : Nat
  timer_config : Nat × Nat × Nat × Nat
  validators : List ConsensusValidator
  deriving DecidableEq, Repr

def gen_overlord_status (height interval t1 t2 t3 t4 : Nat)
    (vals : List ConsensusValidator) : OverlordStatus :=
  ⟨height, interval, (t1, t2, t3, t4), vals⟩

inductive OverlordMsg
  | RichStatus (s : OverlordStatus)
  deriving DecidableEq, Repr

/-- Outcome of `update_status`: either the `expect` on the unset handler slot
panics, or a message is sent to the engine. -/
inductive UpdateStatusOutcome
  | panicked
  | sent (msg : OverlordMsg)
  deriving DecidableEq, Repr

/-- `set_overlord_handler` (adapter.rs:652-654): writes the slot. -/
def set_overlord_handler (_slot : Option OverlordHandler) (handler : OverlordHandler) :
    Option OverlordHandler :=
  some handler

/-- `update_status` (adapter.rs:149-178): reads the handler slot, `expect`s it
to be set (modelled as `panicked`), then sends
`RichStatus (gen_overlord_status (number + 1) …)`. -/
def update_status (slot : Option OverlordHandler) (number interval t1 t2 t3 t4 : Nat)
    (vals : List ConsensusValidator) : UpdateStatusOutcome :=
  match slot with
  | none => .panicked
  | some _ =>
    .sent (.RichStatus (gen_overlord_status (number + 1) interval t1 t2 t3 t4 vals))

end Consensus

namespace TrieDB

/-- Trie keys and values are byte vectors (`Vec<u8>`). -/
abbrev K := List Nat
abbrev V := List Nat

inductive TrieErr
  | Store
  | BatchLengthMismatch
  deriving DecidableEq, Repr

/-- The key set of an association-list map. -/
def mapKeys (m : List (K × V)) : List K :=
  m.map Prod.fst

/-- `DashMap::get` on the association-list model of the cache (and the model of
the persistent store's point read). -/
def tGet (m : List (K × V)) (k : K) : Option V :=
  (m.find? (fun p => decide (p.1 = k))).map Prod.snd

/-- `DashMap::insert`: overwrite semantics.  The entry is brought to the front;
iteration order of the real concurrent map is arbitrary, so no order is
promised by the model either. -/
def tInsert (m : List (K × V)) (k : K) (v : V) : List (K × V) :=
  (k, v) :: m.filter (fun p => decide (p.1 ≠ k))

/-- `DashMap::remove`. -/
def tRemove (m : List (K × V)) (k : K) : List (K × V) :=
  m.filter (fun p => decide (p.1 ≠ k))

/-- The `RocksTrieDB` state: the in-memory cache and the persistent store.
Store reads are modelled as never failing; store-write failures are the
`putFails` flag on the writing operations (the `Store` error path). -/
structure TrieState where
  cache : List (K × V)
  db : List (K × V)
  deriving DecidableEq, Repr

/-- `insert` (trie_db.rs:98-112): the cache is updated first, then the store
write runs and may fail. -/
def insert (st : TrieState) (putFails : Bool) (key : K) (value : V) :
    Except TrieErr Unit × TrieState :=
  let st1 : TrieState := { st with cache := tInsert st.cache key value }
  if putFails then
    (.error .Store, st1)
  else
    (.ok (), { st1 with db := tInsert st1.db key value })

/-- `insert_batch` (trie_db.rs:114-135): length check, then every pair goes
into the cache and into one write batch; the single batch write may fail. -/
def insert_batch (st : TrieState) (putFails : Bool) (keys : List K) (values : List V) :
    Except TrieErr Unit × TrieState :=
  if keys.length ≠ values.length then
    (.error .BatchLengthMismatch, st)
  else
    let pairs := keys.zip values
    let st1 : TrieState := { st with cache := pairs.foldl (fun c p => tInsert c p.1 p.2) st.cache }
    if putFails then
      (.error .Store, st1)
    else
      (.ok (), { st1 with db := pairs.foldl (fun d p => tInsert d p.1 p.2) st1.db })

/-- `inner_get` (trie_db.rs:48-64): cache hit, else store read, populating the
cache on a store hit. -/
def inner_get (st : TrieState) (key : K) : Option V × TrieState :=
  match tGet st.cache key with
  | some v => (some v, st)
  | none =>
    match tGet st.db key with
    | some v => (some v, { st with cache := tInsert st.cache key v })
    | none => (none, st)

/-- The loop body of `rand_remove_list` (trie_db.rs:166-180).  `gen_range(0..len)`
panics when the range is empty — modelled as `none`; otherwise the drawn value
is `draws step % len`, an arbitrary-stream abstraction of the seeded PRNG
(every concrete PRNG stream is one choice of `draws`). `idx_list.remove(tmp)`
is `eraseIdx`, `keys[idx]` is `getD`. -/
def randRemoveGo (keys : List K) (draws : Nat → Nat) :
    Nat → List Nat → Nat → Nat → List K → Option (List K)
  | 0, _, _, _, acc => some acc.reverse
  | num + 1, idx_list, len, step, acc =>
    if len = 0 then none
    else
      let tmp := draws step % len
      let idx := idx_list.getD tmp 0
      randRemoveGo keys draws num (idx_list.eraseIdx tmp) (len - 1) (step + 1)
        (keys.getD idx [] :: acc)

/-- `rand_remove_list` (trie_db.rs:166-180): draws `num` indices from the pool
`0 .. keys.len() - 1` (one less than the number of keys) without replacement. -/
def rand_remove_list (keys : List K) (num : Nat) (draws : Nat → Nat) :
    Option (List K) :=
  randRemoveGo keys draws num (List.range (keys.length - 1)) (keys.length - 1) 0 []

/-- `flush` (trie_db.rs:145-163): nothing to do while the cache is within
bounds; otherwise remove a `rand_remove_list` selection of
`len - cache_size` keys from the cache (`none` = the panic inside
`rand_remove_list`). The store is never touched. -/
def flush (st : TrieState) (cache_size : Nat) (draws : Nat → Nat) :
    Option TrieState :=
  let len := st.cache.length
  if len ≤ cache_size then some st
  else
    match rand_remove_list (mapKeys st.cache) (len - cache_size) draws with
    | none => none
    | some remove_list =>
      some { st with cache := remove_list.foldl (fun c k => tRemove c k) st.cache }

/-- The write-through invariant claimed by the spec: every key present in the
cache has the same value in the persistent store. -/
def cacheStoreInv (st : TrieState) : Prop :=
  ∀ k v, tGet st.cache k = some v → tGet st.db k = some v

end TrieDB

namespace Mempool

/-- Transaction hashes abstracted. -/
abbrev Hash := Nat

/-- A signed transaction, identified by its precomputed hash; the remaining
envelope fields are opaque to the admission pipeline under verification. -/
structure SignedTransaction where
  hash : Hash
  deriving DecidableEq, Repr

inductive MemPoolError
  | ReachLimit (size : Nat)
  | Dup (hash : Hash)
  | EnsureBreak (require : Nat) (response : Nat)
  | EnsureDup (hash : Hash)
  | VerifyBatchTransactions
  | CommittedTx (hash : Hash)
  | CheckAuthorization (hash : Hash)
  | CheckTransactionFailed (hash : Hash)
  | PullFailed
  deriving DecidableEq, Repr

/-- Modelled from the spec: `PriorityPool` (`core/mempool/src/pool.rs` is not
among the provided sources).  The ordinary queue and the system queue are kept
as lists; `insert` appends to the ordinary queue, rejecting `Dup` when the
hash is already present and `ReachLimit` when the ordinary queue holds
`pool_size` entries; `insert_system_script_tx` appends to the system queue
under the same duplicate rule; `reach_limit` holds when the ordinary queue has
reached `pool_size`. -/
structure PriorityPool where
  pool_size : Nat
  ordinary : List SignedTransaction
  system : List SignedTransaction
  deriving DecidableEq, Repr

def poolContains (p : PriorityPool) (h : Hash) : Bool :=
  p.ordinary.any (fun tx => decide (tx.hash = h)) ||
    p.system.any (fun tx => decide (tx.hash = h))

def poolInsert (p : PriorityPool) (tx : SignedTransaction) :
    Except MemPoolError PriorityPool :=
  if poolContains p tx.hash then .error (.Dup tx.hash)
  else if p.ordinary.length = p.pool_size then .error (.ReachLimit p.pool_size)
  else .ok { p with ordinary := p.ordinary ++ [tx] }

def poolInsertSystem (p : PriorityPool) (tx : SignedTransaction) :
    Except MemPoolError PriorityPool :=
  if poolContains p tx.hash then .error (.Dup tx.hash)
  else .ok { p with system := p.system ++ [tx] }

def reach_limit (p : PriorityPool) : Bool :=
  decide (p.pool_size ≤ p.ordinary.length)

/-- The `MemPoolAdapter` collaborator as an oracle bundle
(`check_authorization`, `check_transaction`, `check_storage_exist`,
`broadcast_tx`, `pull_txs`). -/
structure AdapterOracle where
  check_authorization : SignedTransaction → Except MemPoolError Unit
  check_transaction : SignedTransaction → Except MemPoolError Unit
  check_storage_exist : Hash → Except MemPoolError Unit
  broadcast_tx : SignedTransaction → Except MemPoolError Unit
  pull_txs : List Hash → Except MemPoolError (List SignedTransaction)

/-- `insert_tx` (lib.rs:96-126): capacity check, the three adapter checks, the
queue insertion, then either broadcast (local origin) or `report_good`
(network origin; no pool effect).  The returned state is the pool after the
call. -/
def insert_tx (ad : AdapterOracle) (pool : PriorityPool) (tx : SignedTransaction)
    (is_system_script : Bool) (is_network_origin : Bool) :
    PriorityPool × Except MemPoolError Unit :=
  if reach_limit pool then (pool, .error (.ReachLimit pool.pool_size))
  else
    match ad.check_authorization tx with
    | .error e => (pool, .error e)
    | .ok _ =>
      match ad.check_transaction tx with
      | .error e => (pool, .error e)
      | .ok _ =>
        match ad.check_storage_exist tx.hash with
        | .error e => (pool, .error e)
        | .ok _ =>
          match (if is_system_script then poolInsertSystem pool tx
                 else poolInsert pool tx) with
          | .error e => (pool, .error e)
          | .ok pool1 =>
            if !is_network_origin then
              match ad.broadcast_tx tx with
              | .error e => (pool1, .error e)
              | .ok _ => (pool1, .ok ())
            else
              (pool1, .ok ())

/-- `initial_insert` (lib.rs:89-94): only `check_storage_exist`, then the
ordinary-queue insertion. -/
def initial_insert (ad : AdapterOracle) (pool : PriorityPool)
    (tx : SignedTransaction) : PriorityPool × Except MemPoolError Unit :=
  match ad.check_storage_exist tx.hash with
  | .error e => (pool, .error e)
  | .ok _ =>
    match poolInsert pool tx with
    | .error e => (pool, .error e)
    | .ok p => (p, .ok ())

/-- `MemPoolImpl::new` (lib.rs:41-58): starts from an empty pool of the given
size and runs `initial_insert` on every initial transaction, logging and
ignoring failures. -/
def mempool_new (pool_size : Nat) (ad : AdapterOracle)
    (initial_txs : List SignedTransaction) : PriorityPool :=
  initial_txs.foldl (fun pool tx => (initial_insert ad pool tx).1)
    ⟨pool_size, [], []⟩

/-- The loop of `check_dup_order_hashes` (lib.rs:309-321) with its running
`dup_set`. -/
def checkDupGo : List Hash → List Hash → Except MemPoolError Unit
  | [], _ => .ok ()
  | h :: rest, seen =>
    if seen.contains h then .error (.EnsureDup h)
    else checkDupGo rest (h :: seen)

def check_dup_order_hashes (order_tx_hashes : List Hash) :
    Except MemPoolError Unit :=
  checkDupGo order_tx_hashes []

/-- `show_unknown_txs` (lib.rs:76-87). -/
def show_unknown_txs (pool : PriorityPool) (tx_hashes : List Hash) : List Hash :=
  tx_hashes.filter (fun h => !(poolContains pool h))

/-- One transaction's checks inside `verify_tx_in_parallel` (lib.rs:128-163). -/
def verifyOne (ad : AdapterOracle) (tx : SignedTransaction) : Bool :=
  (match ad.check_authorization tx with | .ok _ => true | .error _ => false) &&
  (match ad.check_transaction tx with | .ok _ => true | .error _ => false) &&
  (match ad.check_storage_exist tx.hash with | .ok _ => true | .error _ => false)

/-- `verify_tx_in_parallel`: any failing transaction surfaces as
`VerifyBatchTransactions`. -/
def verify_tx_in_parallel (ad : AdapterOracle) (txs : List SignedTransaction) :
    Except MemPoolError Unit :=
  if txs.all (verifyOne ad) then .ok ()
  else .error .VerifyBatchTransactions

/-- The insertion loop at the end of `ensure_order_txs`: the `?` operator stops
at the first failing `pool.insert`; in the source the error aborts the whole
call, leaving the pool as the concurrent structure already holds the earlier
insertions — the model keeps them too. -/
def insertAll : PriorityPool → List SignedTransaction →
    PriorityPool × Except MemPoolError Unit
  | pool, [] => (pool, .ok ())
  | pool, tx :: rest =>
    match poolInsert pool tx with
    | .error e => (pool, .error e)
    | .ok p1 => insertAll p1 rest

/-- `ensure_order_txs` (lib.rs:262-297): duplicate check, unknown-hash
computation, pull from peers with the exact-count check, parallel verification,
insertion. -/
def ensure_order_txs (ad : AdapterOracle) (pool : PriorityPool)
    (order_tx_hashes : List Hash) : PriorityPool × Except MemPoolError Unit :=
  match check_dup_order_hashes order_tx_hashes with
  | .error e => (pool, .error e)
  | .ok _ =>
    let unknown := show_unknown_txs pool order_tx_hashes
    if unknown.isEmpty then (pool, .ok ())
    else
      match ad.pull_txs unknown with
      | .error e => (pool, .error e)
      | .ok txs =>
        if txs.length ≠ unknown.length then
          (pool, .error (.EnsureBreak unknown.length txs.length))
        else
          match verify_tx_in_parallel ad txs with
          | .error e => (pool, .error e)
          | .ok _ => insertAll pool txs

end Mempool

namespace Consensus

/-- A concrete metadata value used to exercise the theorems on closed inputs:
three authorities of vote weight 1 each. -/
def sampleMetadata : Metadata :=
  ⟨0, 10, [⟨1, 11, 1, 1⟩, ⟨2, 12, 1, 1⟩, ⟨3, 13, 1, 1⟩]⟩

/-- Concrete oracles whose bitmap expansion selects the first two of the three
authorities (voting weight 2 of 3). -/
def sampleOracles : ProofOracles where
  proposalHash := fun _ => 5
  getMetadata := fun _ => .ok sampleMetadata
  extractVoters := fun nodes _ => some ((nodes.take 2).map Node.address)
  cryptoHash := fun _ => 0
  verifyAggSig := fun _ _ _ => true

/-- Concrete oracles whose bitmap expansion selects all three authorities. -/
def sampleOraclesAll : ProofOracles where
  proposalHash := fun _ => 5
  getMetadata := fun _ => .ok sampleMetadata
  extractVoters := fun nodes _ => some (nodes.map Node.address)
  cryptoHash := fun _ => 0
  verifyAggSig := fun _ _ _ => true

/-- A concrete stored-header oracle: only height 6 is stored. -/
def sampleGetHeader : Nat → Option Header :=
  fun n => if n = 6 then some ⟨6⟩ else none

/-- A concrete header-hash oracle. -/
def sampleHeaderHash : Header → Bytes :=
  fun h => h.number * 10

end Consensus

namespace Mempool

/-- Concrete adapter oracles for closed instances: every check passes and
pulls echo the requested hashes. -/
def okAdapter : AdapterOracle where
  check_authorization := fun _ => .ok ()
  check_transaction := fun _ => .ok ()
  check_storage_exist := fun _ => .ok ()
  broadcast_tx := fun _ => .ok ()
  pull_txs := fun hs => .ok (hs.map (fun h => ⟨h⟩))

/-- Concrete adapter oracles whose broadcast fails. -/
def broadcastFailAdapter : AdapterOracle where
  check_authorization := fun _ => .ok ()
  check_transaction := fun _ => .ok ()
  check_storage_exist := fun _ => .ok ()
  broadcast_tx := fun tx => .error (.CommittedTx tx.hash)
  pull_txs := fun hs => .ok (hs.map (fun h => ⟨h⟩))

/-- Concrete adapter oracles whose storage-existence check fails. -/
def storageFailAdapter : AdapterOracle where
  check_authorization := fun _ => .ok ()
  check_transaction := fun _ => .ok ()
  check_storage_exist := fun h => .error (.CommittedTx h)
  broadcast_tx := fun _ => .ok ()
  pull_txs := fun hs => .ok (hs.map (fun h => ⟨h⟩))

/-- Concrete adapter oracles whose authorization check fails (same storage
check as `okAdapter`). -/
def authFailAdapter : AdapterOracle where
  check_authorization := fun tx => .error (.CheckAuthorization tx.hash)
  check_transaction := fun _ => .ok ()
  check_storage_exist := fun _ => .ok ()
  broadcast_tx := fun _ => .ok ()
  pull_txs := fun hs => .ok (hs.map (fun h => ⟨h⟩))

end Mempool

namespace Consensus

/-- C2: for every block whose `header.number` is 0 and every proof value
whatsoever, `verify_proof` returns success without consulting the metadata,
the bitmap, the weights, or the signature (the result is `ok` for arbitrary
collaborator oracles). -/
theorem verify_proof_genesis (o : ProofOracles) (block : Block) (pf : Proof)
    (h : block.header.number = 0) :
    verify_proof o block pf = .ok () := by
  simp [verify_proof, h]

/-- Witness for C2 at a concrete genesis block and a thoroughly mismatching
proof. -/
theorem verify_proof_genesis_witness :
    verify_proof sampleOracles ⟨⟨0⟩⟩ ⟨42, 7, 9, [true, false], 3⟩ = .ok () :=
  verify_proof_genesis sampleOracles ⟨⟨0⟩⟩ ⟨42, 7, 9, [true, false], 3⟩ rfl

/-- C3: given a stored header at height `p.number - 1`, `verify_block_header`
succeeds iff that header's hash equals `p.prev_hash`, and on a mismatch it
fails with `VerifyBlockHeader (p.number, PreviousBlockHash)`. -/
theorem verify_block_header_linkage (getHeader : Nat → Option Header)
    (headerHash : Header → Bytes) (p : Proposal) (prev : Header)
    (hstored : getHeader (p.number - 1) = some prev) :
    (verify_block_header getHeader headerHash p = .ok () ↔
      headerHash prev = p.prev_hash)
    ∧ (headerHash prev ≠ p.prev_hash →
      verify_block_header getHeader headerHash p =
        .error (.VerifyBlockHeader p.number .PreviousBlockHash)) := by
  unfold verify_block_header
  rw [hstored]
  by_cases h : headerHash prev = p.prev_hash <;> simp [h]

/-- Witness for C3: height-7 proposal over the stored height-6 header. -/
theorem verify_block_header_linkage_witness :
    verify_block_header sampleGetHeader sampleHeaderHash ⟨7, 60⟩ = .ok () :=
  (verify_block_header_linkage sampleGetHeader sampleHeaderHash ⟨7, 60⟩ ⟨6⟩
    rfl).1.mpr rfl

end Consensus

namespace Consensus

/-- C8: `update_status` panics (`expect`) when the overlord handle slot has
never been written; once the handle is set through `set_overlord_handler`, it
sends a `RichStatus` message for height `number + 1` and does not panic. -/
theorem update_status_handler_guard (slot : Option OverlordHandler)
    (handler : OverlordHandler) (number interval t1 t2 t3 t4 : Nat)
    (vals : List ConsensusValidator) :
    update_status none number interval t1 t2 t3 t4 vals = .panicked
    ∧ update_status (set_overlord_handler slot handler)
        number interval t1 t2 t3 t4 vals =
      .sent (.RichStatus ⟨number + 1, interval, (t1, t2, t3, t4), vals⟩) :=
  ⟨rfl, rfl⟩

end Consensus

namespace Consensus

/-- C1: for a non-genesis block and a proof that reaches the weight check with
all signed voters members of the authority set, `verify_proof` rejects with
the `Weight` error whenever `3·accum ≤ 2·total`, and the weight check passes
whenever `3·accum > 2·total` (with `accum` the sum of the signers' vote
weights and `total` the sum of all authorities' vote weights). -/
theorem verify_proof_weight_supermajority (o : ProofOracles) (block : Block)
    (pf : Proof) (md : Metadata) (signed_voters : List Bytes) (accum : Nat)
    (hn : 0 < block.header.number)
    (hnum : block.header.number = pf.number)
    (hhash : o.proposalHash block = pf.block_hash)
    (hmd : o.getMetadata block.header = .ok md)
    (hver : md.versionContains block.header.number = true)
    (hvoters : o.extractVoters (authorityNodes md) pf.bitmap = some signed_voters)
    (haccum : accumWeights (weightMapOf md) signed_voters = some accum) :
    (3 * accum ≤ 2 * ((weightMapOf md).map Prod.snd).sum →
      verify_proof o block pf =
        .error (.VerifyProof block.header.number .Weight))
    ∧ (2 * ((weightMapOf md).map Prod.snd).sum < 3 * accum →
      verify_proof_weight block.header.number (weightMapOf md) signed_voters =
        .ok ()) := by
  constructor
  · intro hle
    unfold verify_proof
    rw [if_neg (Nat.pos_iff_ne_zero.mp hn), if_neg (not_not_intro hnum),
      if_neg (not_not_intro hhash), hmd]
    simp only [hver, Bool.not_true, Bool.false_eq_true, if_false, hvoters]
    unfold verify_proof_weight
    rw [haccum]
    simp [hle]
  · intro hgt
    unfold verify_proof_weight
    rw [haccum]
    simp [Nat.not_le.mpr hgt]

/-- Witness for C1: three authorities of weight 1; a two-signer proof
(`3·2 ≤ 2·3`) is rejected with `Weight`, a three-signer weight check
(`2·3 < 3·3`) passes. -/
theorem verify_proof_weight_supermajority_witness :
    verify_proof sampleOracles ⟨⟨7⟩⟩ ⟨7, 0, 5, [], 0⟩ =
      .error (.VerifyProof 7 .Weight)
    ∧ verify_proof_weight 7 (weightMapOf sampleMetadata) [1, 2, 3] = .ok () :=
  ⟨(verify_proof_weight_supermajority sampleOracles ⟨⟨7⟩⟩ ⟨7, 0, 5, [], 0⟩
      sampleMetadata [1, 2] 2 (by decide) rfl rfl rfl (by decide) (by decide)
      (by decide)).1 (by decide),
    (verify_proof_weight_supermajority sampleOraclesAll ⟨⟨7⟩⟩ ⟨7, 0, 5, [], 0⟩
      sampleMetadata [1, 2, 3] 3 (by decide) rfl rfl rfl (by decide) (by decide)
      (by decide)).2 (by decide)⟩

end Consensus

namespace Mempool

/-- A successful `poolInsert` makes the pool contain the hash. -/
theorem poolInsert_contains (pool pool1 : PriorityPool) (tx : SignedTransaction)
    (h : poolInsert pool tx = .ok pool1) : poolContains pool1 tx.hash = true := by
  unfold poolInsert at h
  split_ifs at h
  cases h
  simp [poolContains]

/-- A successful `poolInsertSystem` makes the pool contain the hash. -/
theorem poolInsertSystem_contains (pool pool1 : PriorityPool)
    (tx : SignedTransaction) (h : poolInsertSystem pool tx = .ok pool1) :
    poolContains pool1 tx.hash = true := by
  unfold poolInsertSystem at h
  split_ifs at h
  cases h
  simp [poolContains]

/-- C6: the pool is touched only after the capacity check and the three
adapter checks succeed — on any of their failures the pool is unchanged — and
a broadcast failure after insertion leaves the entry in the pool. -/
theorem insert_tx_checks_precede_insertion (ad : AdapterOracle)
    (pool : PriorityPool) (tx : SignedTransaction) (s n : Bool) :
    (reach_limit pool = true →
      insert_tx ad pool tx s n = (pool, .error (.ReachLimit pool.pool_size)))
    ∧ (∀ e, ad.check_authorization tx = .error e →
      (insert_tx ad pool tx s n).1 = pool)
    ∧ (∀ e, ad.check_transaction tx = .error e →
      (insert_tx ad pool tx s n).1 = pool)
    ∧ (∀ e, ad.check_storage_exist tx.hash = .error e →
      (insert_tx ad pool tx s n).1 = pool)
    ∧ (∀ pool1 e, reach_limit pool = false →
      ad.check_authorization tx = .ok () →
      ad.check_transaction tx = .ok () →
      ad.check_storage_exist tx.hash = .ok () →
      (if s then poolInsertSystem pool tx else poolInsert pool tx) = .ok pool1 →
      n = false → ad.broadcast_tx tx = .error e →
      insert_tx ad pool tx s n = (pool1, .error e) ∧
        poolContains pool1 tx.hash = true) := by
  refine ⟨fun hrl => ?_, fun e he => ?_, fun e he => ?_, fun e he => ?_,
    fun pool1 e hrl hauth htx hst hins hn hbr => ?_⟩
  · simp [insert_tx, hrl]
  · unfold insert_tx
    split
    · rfl
    · rw [he]
  · unfold insert_tx
    split
    · rfl
    · cases hauth : ad.check_authorization tx with
      | error _ => rfl
      | ok _ => rw [he]
  · unfold insert_tx
    split
    · rfl
    · cases hauth : ad.check_authorization tx with
      | error _ => rfl
      | ok _ =>
        cases htx : ad.check_transaction tx with
        | error _ => rfl
        | ok _ => rw [he]
  · subst hn
    refine ⟨?_, ?_⟩
    · unfold insert_tx
      rw [hrl]
      simp only [Bool.false_eq_true, if_false, hauth, htx, hst, hins,
        Bool.not_false, if_true, hbr]
    · cases s with
      | false => exact poolInsert_contains pool pool1 tx (by simpa using hins)
      | true => exact poolInsertSystem_contains pool pool1 tx (by simpa using hins)

/-- Witness for C6: the broadcast failure case at a concrete pool and
transaction; the entry stays in the pool. -/
theorem insert_tx_checks_witness :
    insert_tx broadcastFailAdapter ⟨10, [], []⟩ ⟨5⟩ false false =
      (⟨10, [⟨5⟩], []⟩, .error (.CommittedTx 5))
    ∧ poolContains ⟨10, [⟨5⟩], []⟩ 5 = true :=
  (insert_tx_checks_precede_insertion broadcastFailAdapter ⟨10, [], []⟩ ⟨5⟩
    false false).2.2.2.2 ⟨10, [⟨5⟩], []⟩ (.CommittedTx 5) rfl rfl rfl rfl
    rfl rfl rfl

end Mempool

namespace Mempool

/-- `checkDupGo` succeeds exactly on inputs that are duplicate-free and
disjoint from the running `dup_set`. -/
theorem checkDupGo_ok_iff (l : List Hash) : ∀ seen : List Hash,
    checkDupGo l seen = .ok () ↔ (l.Nodup ∧ ∀ h ∈ l, h ∉ seen) := by
  induction l with
  | nil => intro seen; simp [checkDupGo]
  | cons h rest ih =>
    intro seen
    unfold checkDupGo
    by_cases hc : h ∈ seen
    · simp only [List.elem_eq_mem, hc, decide_True, if_true]
      constructor
      · intro habs; cases habs
      · intro ⟨_, hall⟩
        exact absurd hc (hall h (List.mem_cons_self h rest))
    · simp only [List.elem_eq_mem, hc, decide_False, Bool.false_eq_true, if_false]
      rw [ih (h :: seen)]
      constructor
      · intro ⟨hnd, hall⟩
        refine ⟨List.nodup_cons.mpr ⟨fun hmem => ?_, hnd⟩, ?_⟩
        · exact (hall h hmem) (List.mem_cons_self h seen)
        · intro x hx
          rcases List.mem_cons.mp hx with hxh | hxr
          · exact hxh ▸ hc
          · exact fun hxs => (hall x hxr) (List.mem_cons_of_mem h hxs)
      · intro ⟨hnd, hall⟩
        obtain ⟨hnotin, hnd'⟩ := List.nodup_cons.mp hnd
        refine ⟨hnd', fun x hx hxs => ?_⟩
        rcases List.mem_cons.mp hxs with hxh | hxseen
        · exact hnotin (hxh ▸ hx)
        · exact (hall x (List.mem_cons_of_mem h hx)) hxseen

/-- A `checkDupGo` failure is an `EnsureDup` on a hash that is either already
in the `dup_set` or occurs at least twice in the input. -/
theorem checkDupGo_error_dup (l : List Hash) : ∀ (seen : List Hash)
    (e : MemPoolError), checkDupGo l seen = .error e →
    ∃ h, e = .EnsureDup h ∧ h ∈ l ∧ (h ∈ seen ∨ 2 ≤ l.count h) := by
  induction l with
  | nil => intro seen e habs; cases habs
  | cons h rest ih =>
    intro seen e he
    unfold checkDupGo at he
    by_cases hc : h ∈ seen
    · simp only [List.elem_eq_mem, hc, decide_True, if_true] at he
      cases he
      exact ⟨h, rfl, List.mem_cons_self h rest, Or.inl hc⟩
    · simp only [List.elem_eq_mem, hc, decide_False, Bool.false_eq_true, if_false] at he
      obtain ⟨x, hxe, hxmem, hxcase⟩ := ih (h :: seen) e he
      refine ⟨x, hxe, List.mem_cons_of_mem h hxmem, ?_⟩
      rcases hxcase with hxseen | hxcount
      · rcases List.mem_cons.mp hxseen with hxh | hxs
        · subst hxh
          right
          have h1 : 0 < rest.count x := List.count_pos_iff.mpr hxmem
          rw [List.count_cons_self]
          omega
        · exact Or.inl hxs
      · right
        calc 2 ≤ rest.count x := hxcount
          _ ≤ (h :: rest).count x := List.count_le_count_cons x h rest

/-- C7: any repeated hash in the order list makes `ensure_order_txs` fail with
`EnsureDup` on a duplicated hash, before any pull or insertion (the pool is
returned unchanged, no matter what the adapter would do); a duplicate-free
list passes the duplicate check. -/
theorem ensure_order_txs_rejects_dup (hashes : List Hash) :
    (¬ hashes.Nodup → ∃ h, 2 ≤ hashes.count h ∧
      ∀ (ad : AdapterOracle) (pool : PriorityPool),
        ensure_order_txs ad pool hashes = (pool, .error (.EnsureDup h)))
    ∧ (hashes.Nodup → check_dup_order_hashes hashes = .ok ()) := by
  constructor
  · intro hnd
    cases he : check_dup_order_hashes hashes with
    | ok u =>
      cases u
      exact absurd ((checkDupGo_ok_iff hashes []).mp he).1 hnd
    | error e =>
      obtain ⟨h, rfl, _, hcase⟩ := checkDupGo_error_dup hashes [] e he
      refine ⟨h, ?_, fun ad pool => ?_⟩
      · rcases hcase with habs | hc
        · cases habs
        · exact hc
      · unfold ensure_order_txs
        rw [he]
  · intro hnd
    exact (checkDupGo_ok_iff hashes []).mpr ⟨hnd, by simp⟩

/-- Witness for C7 on the concrete duplicated list `[1, 1]`. -/
theorem ensure_order_txs_rejects_dup_witness :
    ∃ h, 2 ≤ List.count h [1, 1] ∧
      ∀ (ad : AdapterOracle) (pool : PriorityPool),
        ensure_order_txs ad pool [1, 1] = (pool, .error (.EnsureDup h)) :=
  (ensure_order_txs_rejects_dup [1, 1]).1 (by decide)

end Mempool

namespace Mempool

/-- `initial_insert` only consults the storage-existence check of the adapter. -/
theorem initial_insert_storage_only (ad1 ad2 : AdapterOracle)
    (h : ad1.check_storage_exist = ad2.check_storage_exist)
    (pool : PriorityPool) (tx : SignedTransaction) :
    initial_insert ad1 pool tx = initial_insert ad2 pool tx := by
  unfold initial_insert
  rw [h]

/-- The construction fold only consults the storage-existence check. -/
theorem mempool_new_fold_congr (ad1 ad2 : AdapterOracle)
    (h : ad1.check_storage_exist = ad2.check_storage_exist) :
    ∀ (txs : List SignedTransaction) (pool : PriorityPool),
    txs.foldl (fun p tx => (initial_insert ad1 p tx).1) pool =
      txs.foldl (fun p tx => (initial_insert ad2 p tx).1) pool := by
  intro txs
  induction txs with
  | nil => intro pool; rfl
  | cons tx rest ih =>
    intro pool
    simp only [List.foldl_cons]
    rw [initial_insert_storage_only ad1 ad2 h pool tx]
    exact ih _

/-- C9: construction-time admission consults only `check_storage_exist`
(the result does not depend on the authorization or transaction checks), and
a transaction whose initial insert fails is skipped without failing the
construction. -/
theorem mempool_new_initial_admission (pool_size : Nat)
    (ad1 ad2 ad : AdapterOracle) (txs pre post : List SignedTransaction)
    (bad : SignedTransaction) (e : MemPoolError) :
    (ad1.check_storage_exist = ad2.check_storage_exist →
      mempool_new pool_size ad1 txs = mempool_new pool_size ad2 txs)
    ∧ (ad.check_storage_exist bad.hash = .error e →
      mempool_new pool_size ad (pre ++ bad :: post) =
        mempool_new pool_size ad (pre ++ post)) := by
  constructor
  · intro h
    unfold mempool_new
    exact mempool_new_fold_congr ad1 ad2 h txs _
  · intro he
    unfold mempool_new
    rw [List.foldl_append, List.foldl_append, List.foldl_cons]
    have hskip : (initial_insert ad
        (pre.foldl (fun p tx => (initial_insert ad p tx).1) ⟨pool_size, [], []⟩)
        bad).1 =
        pre.foldl (fun p tx => (initial_insert ad p tx).1) ⟨pool_size, [], []⟩ := by
      unfold initial_insert
      rw [he]
    rw [hskip]

/-- Witness for C9: equal storage checks give equal pools even when the other
checks differ, and a storage-rejected transaction is skipped. -/
theorem mempool_new_initial_admission_witness :
    mempool_new 5 okAdapter [⟨1⟩, ⟨2⟩] = mempool_new 5 authFailAdapter [⟨1⟩, ⟨2⟩]
    ∧ mempool_new 5 storageFailAdapter ([⟨1⟩] ++ ⟨3⟩ :: [⟨2⟩]) =
      mempool_new 5 storageFailAdapter ([⟨1⟩] ++ [⟨2⟩]) :=
  ⟨(mempool_new_initial_admission 5 okAdapter authFailAdapter okAdapter
      [⟨1⟩, ⟨2⟩] [] [] ⟨0⟩ .VerifyBatchTransactions).1 rfl,
    (mempool_new_initial_admission 5 okAdapter authFailAdapter storageFailAdapter
      [] [⟨1⟩] [⟨2⟩] ⟨3⟩ (.CommittedTx 3)).2 rfl⟩

end Mempool

namespace TrieDB

/-- `find?` for one key is unchanged by filtering out a different key. -/
theorem find?_filter_ne (m : List (K × V)) (k k' : K) (h : k' ≠ k) :
    List.find? (fun p => decide (p.1 = k'))
        (m.filter (fun p => decide (p.1 ≠ k))) =
      List.find? (fun p => decide (p.1 = k')) m := by
  induction m with
  | nil => rfl
  | cons p rest ih =>
    by_cases hp : p.1 = k
    · rw [List.filter_cons_of_neg (by simp [hp]),
        List.find?_cons_of_neg rest (by simp [hp]; exact fun habs => h habs.symm), ih]
    · rw [List.filter_cons_of_pos (by simp [hp])]
      by_cases hk' : p.1 = k'
      · rw [List.find?_cons_of_pos _ (by simp [hk']),
          List.find?_cons_of_pos _ (by simp [hk'])]
      · rw [List.find?_cons_of_neg _ (by simp [hk']),
          List.find?_cons_of_neg _ (by simp [hk']), ih]

/-- Point lookup after an overwrite-insert. -/
theorem tGet_tInsert (m : List (K × V)) (k : K) (v : V) (k' : K) :
    tGet (tInsert m k v) k' = if k' = k then some v else tGet m k' := by
  unfold tGet tInsert
  by_cases h : k' = k
  · subst h
    rw [if_pos rfl, List.find?_cons_of_pos _ (by simp)]
    rfl
  · rw [if_neg h, List.find?_cons_of_neg _ (by simp; exact fun habs => h habs.symm),
      find?_filter_ne m k k' h]

/-- Point lookup after a removal. -/
theorem tGet_tRemove (m : List (K × V)) (k : K) (k' : K) :
    tGet (tRemove m k) k' = if k' = k then none else tGet m k' := by
  unfold tGet tRemove
  by_cases h : k' = k
  · subst h
    rw [if_pos rfl]
    have : List.find? (fun p => decide (p.1 = k'))
        (m.filter (fun p => decide (p.1 ≠ k'))) = none := by
      rw [List.find?_eq_none]
      intro p hp
      have := (List.mem_filter.mp hp).2
      simp only [decide_not, Bool.not_eq_true', decide_eq_false_iff_not] at this
      simp [this]
    rw [this]
    rfl
  · rw [if_neg h, find?_filter_ne m k k' h]

end TrieDB

namespace TrieDB

/-- A simultaneous overwrite-insert on both sides preserves the pointwise
cache-implies-store agreement. -/
theorem submap_tInsert (m1 m2 : List (K × V)) (k : K) (v : V)
    (h : ∀ k' v', tGet m1 k' = some v' → tGet m2 k' = some v') :
    ∀ k' v', tGet (tInsert m1 k v) k' = some v' →
      tGet (tInsert m2 k v) k' = some v' := by
  intro k' v' hget
  rw [tGet_tInsert] at hget ⊢
  by_cases hk : k' = k
  · rw [if_pos hk] at hget ⊢
    exact hget
  · rw [if_neg hk] at hget ⊢
    exact h k' v' hget

/-- Folding the same insert sequence into both sides preserves the pointwise
agreement. -/
theorem submap_foldl_tInsert (pairs : List (K × V)) :
    ∀ (m1 m2 : List (K × V)),
    (∀ k' v', tGet m1 k' = some v' → tGet m2 k' = some v') →
    ∀ k' v', tGet (pairs.foldl (fun c p => tInsert c p.1 p.2) m1) k' = some v' →
      tGet (pairs.foldl (fun c p => tInsert c p.1 p.2) m2) k' = some v' := by
  induction pairs with
  | nil => intro m1 m2 h; exact h
  | cons p rest ih =>
    intro m1 m2 h
    simp only [List.foldl_cons]
    exact ih (tInsert m1 p.1 p.2) (tInsert m2 p.1 p.2) (submap_tInsert m1 m2 p.1 p.2 h)

/-- C4 counterexample: starting from a state satisfying the write-through
invariant, a single `insert` whose store write fails leaves the cache holding
a value the store does not — `insert` updates the cache before the store. -/
theorem trie_insert_writethrough_cex :
    cacheStoreInv ⟨[], []⟩
    ∧ ¬ cacheStoreInv (TrieDB.insert ⟨[], []⟩ true [1] [2]).2 := by
  constructor
  · intro k v h
    simp [tGet] at h
  · intro h
    have := h [1] [2] (by rfl)
    simp [TrieDB.insert, tGet, tInsert] at this

/-- C4 amended: `insert` and `insert_batch` preserve the cache-store agreement
when the store write succeeds; on a store-write failure the cache has already
been updated, so the invariant is **not** guaranteed (see the counterexample). -/
theorem trie_insert_writethrough (st : TrieState) (k : K) (v : V)
    (keys : List K) (values : List V) (hinv : cacheStoreInv st) :
    cacheStoreInv (TrieDB.insert st false k v).2
    ∧ cacheStoreInv (insert_batch st false keys values).2 := by
  constructor
  · intro k' v' hget
    simp only [TrieDB.insert, Bool.false_eq_true, if_false] at hget ⊢
    exact submap_tInsert st.cache st.db k v hinv k' v' hget
  · unfold insert_batch
    by_cases hlen : keys.length = values.length
    · rw [if_neg (not_not_intro hlen)]
      intro k' v' hget
      simp only [Bool.false_eq_true, if_false] at hget ⊢
      exact submap_foldl_tInsert (keys.zip values) st.cache st.db hinv k' v' hget
    · rw [if_pos hlen]
      exact hinv

/-- Witness for C4 (amended) at a concrete state and pair of writes. -/
theorem trie_insert_writethrough_witness :
    cacheStoreInv (TrieDB.insert ⟨[], []⟩ false [1] [2]).2
    ∧ cacheStoreInv (insert_batch ⟨[], []⟩ false [[3]] [[4]]).2 :=
  trie_insert_writethrough ⟨[], []⟩ [1] [2] [[3]] [[4]]
    (fun k v h => by simp [tGet] at h)

end TrieDB

namespace TrieDB

/-- The selection loop hits the empty-range panic exactly when more draws are
requested than the candidate pool holds. -/
theorem randRemoveGo_none_iff (keys : List K) (draws : Nat → Nat) :
    ∀ (num : Nat) (idx_list : List Nat) (len step : Nat) (acc : List K),
    randRemoveGo keys draws num idx_list len step acc = none ↔ len < num := by
  intro num
  induction num with
  | zero => intro idx_list len step acc; simp [randRemoveGo]
  | succ n ih =>
    intro idx_list len step acc
    unfold randRemoveGo
    by_cases hl : len = 0
    · rw [if_pos hl]
      simp
      omega
    · rw [if_neg hl, ih]
      omega

/-- C10: `rand_remove_list` panics (`gen_range` on an empty range) exactly
when `num > keys.len() - 1`, because it draws from a pool of `keys.len() - 1`
index candidates; in particular `flush` on a non-empty cache configured with
`cache_size = 0` panics. -/
theorem rand_remove_list_panic_bound (keys : List K) (num : Nat)
    (draws : Nat → Nat) (st : TrieState) :
    (rand_remove_list keys num draws = none ↔ keys.length - 1 < num)
    ∧ (st.cache ≠ [] → flush st 0 draws = none) := by
  constructor
  · unfold rand_remove_list
    exact randRemoveGo_none_iff keys draws num _ _ 0 []
  · intro hne
    have hlen : 0 < st.cache.length := List.length_pos.mpr hne
    unfold flush
    rw [if_neg (by omega)]
    have hnone : rand_remove_list (mapKeys st.cache) (st.cache.length - 0) draws
        = none := by
      unfold rand_remove_list
      rw [randRemoveGo_none_iff]
      simp only [mapKeys, List.length_map]
      omega
    rw [hnone]

/-- Witness for C10: a one-entry cache with `cache_size = 0`. -/
theorem rand_remove_list_panic_bound_witness :
    flush ⟨[([1], [2])], []⟩ 0 (fun _ => 0) = none :=
  (rand_remove_list_panic_bound [] 0 (fun _ => 0) ⟨[([1], [2])], []⟩).2
    (by decide)

end TrieDB

namespace TrieDB

/-- In a duplicate-free list, the element at an index is gone after erasing
that index. -/
theorem get_not_mem_eraseIdx (l : List Nat) (i : Nat) (hnd : l.Nodup)
    (hi : i < l.length) : l.get ⟨i, hi⟩ ∉ l.eraseIdx i := by
  intro hmem
  rw [List.mem_eraseIdx_iff_getElem] at hmem
  obtain ⟨j, hj, hne, he⟩ := hmem
  exact hne ((List.Nodup.getElem_inj_iff hnd).mp (by simpa using he))

/-- Success structure of the selection loop: starting from a duplicate-free
index pool whose size matches `len`, drawing `num ≤ len` times yields the keys
at `num` distinct indices taken from the pool. -/
theorem randRemoveGo_spec (keys : List K) (draws : Nat → Nat) :
    ∀ (num : Nat) (idx_list : List Nat) (len step : Nat) (acc : List K),
    len = idx_list.length → idx_list.Nodup → num ≤ len →
    ∃ idxs : List Nat,
      randRemoveGo keys draws num idx_list len step acc =
        some (acc.reverse ++ idxs.map (fun i => keys.getD i [])) ∧
      idxs.Nodup ∧ idxs.length = num ∧ ∀ i ∈ idxs, i ∈ idx_list := by
  intro num
  induction num with
  | zero =>
    intro idx_list len step acc _ _ _
    exact ⟨[], by simp [randRemoveGo], List.nodup_nil, rfl, by simp⟩
  | succ n ih =>
    intro idx_list len step acc hlen hnd hnum
    have hl : len ≠ 0 := by omega
    have htmp : draws step % len < len := Nat.mod_lt _ (by omega)
    have htmp' : draws step % len < idx_list.length := by omega
    have hidx_get : idx_list.getD (draws step % len) 0 =
        idx_list.get ⟨draws step % len, htmp'⟩ :=
      List.getD_eq_getElem idx_list 0 htmp'
    have hlen' : len - 1 = (idx_list.eraseIdx (draws step % len)).length := by
      rw [List.length_eraseIdx_of_lt htmp']
      omega
    obtain ⟨idxs', hgo, hnd', hlen_idxs, hmem_idxs⟩ :=
      ih (idx_list.eraseIdx (draws step % len)) (len - 1) (step + 1)
        (keys.getD (idx_list.getD (draws step % len) 0) [] :: acc)
        hlen' (List.Nodup.eraseIdx _ hnd) (by omega)
    refine ⟨idx_list.getD (draws step % len) 0 :: idxs', ?_, ?_, ?_, ?_⟩
    · unfold randRemoveGo
      rw [if_neg hl, hgo, List.reverse_cons, List.map_cons, List.append_assoc,
        List.singleton_append]
    · refine List.nodup_cons.mpr ⟨fun habs => ?_, hnd'⟩
      have := hmem_idxs _ habs
      rw [hidx_get] at this
      exact get_not_mem_eraseIdx idx_list (draws step % len) hnd htmp' this
    · simp [hlen_idxs]
    · intro i hi
      rcases List.mem_cons.mp hi with hh | ht
      · rw [hh, hidx_get]
        exact List.get_mem idx_list _ htmp'
      · exact (List.eraseIdx_sublist idx_list (draws step % len)).subset
          (hmem_idxs i ht)

end TrieDB

namespace TrieDB

/-- The key set of a removal is the filtered key set. -/
theorem mapKeys_tRemove (m : List (K × V)) (k : K) :
    mapKeys (tRemove m k) = (mapKeys m).filter (fun x => decide (x ≠ k)) := by
  unfold mapKeys tRemove
  induction m with
  | nil => rfl
  | cons p rest ih =>
    by_cases hp : p.1 = k
    · rw [List.filter_cons_of_neg (by simp [hp]), List.map_cons,
        List.filter_cons_of_neg (by simp [hp]), ih]
    · rw [List.filter_cons_of_pos (by simp [hp]), List.map_cons, List.map_cons,
        List.filter_cons_of_pos (by simp [hp]), ih]

/-- Filtering one occurrence out of a duplicate-free list drops the length by
exactly one. -/
theorem filter_ne_length (k : K) : ∀ (l : List K), l.Nodup → k ∈ l →
    (l.filter (fun x => decide (x ≠ k))).length = l.length - 1 := by
  intro l
  induction l with
  | nil => intro _ habs; cases habs
  | cons a rest ih =>
    intro hnd hmem
    obtain ⟨hnotin, hnd'⟩ := List.nodup_cons.mp hnd
    by_cases ha : a = k
    · subst ha
      rw [List.filter_cons_of_neg (by simp)]
      rw [List.filter_eq_self.mpr]
      · simp
      · intro b hb
        simp only [decide_not, Bool.not_eq_false', decide_eq_true_eq]
        simp only [decide_eq_true_eq, Bool.not_eq_true', decide_eq_false_iff_not]
        exact fun habs => hnotin (habs ▸ hb)
    · have hkrest : k ∈ rest := by
        rcases List.mem_cons.mp hmem with h1 | h2
        · exact absurd h1.symm ha
        · exact h2
      have hrest_ne : 0 < rest.length := List.length_pos.mpr
        (fun habs => by rw [habs] at hkrest; cases hkrest)
      rw [List.filter_cons_of_pos (by simp [ha])]
      simp only [List.length_cons, ih hnd' hkrest]
      omega

/-- A lookup misses exactly when the key is absent. -/
theorem tGet_eq_none_iff (m : List (K × V)) (k : K) :
    tGet m k = none ↔ k ∉ mapKeys m := by
  unfold tGet mapKeys
  rw [Option.map_eq_none', List.find?_eq_none]
  constructor
  · intro h hmem
    obtain ⟨p, hp, hfst⟩ := List.mem_map.mp hmem
    exact absurd (by simpa using hfst) (by simpa using h p hp)
  · intro h p hp
    simp only [decide_eq_true_eq]
    exact fun habs => h (List.mem_map.mpr ⟨p, hp, habs⟩)

/-- Effect of removing a duplicate-free batch of present keys: the length
drops by the batch size, lookups on removed keys miss, others are untouched,
and the key set is the original minus the batch. -/
theorem foldl_tRemove_spec : ∀ (ks : List K) (c : List (K × V)),
    ks.Nodup → (∀ k ∈ ks, k ∈ mapKeys c) → (mapKeys c).Nodup →
    (ks.foldl (fun m k => tRemove m k) c).length = c.length - ks.length ∧
    (∀ k, tGet (ks.foldl (fun m k => tRemove m k) c) k =
      if k ∈ ks then none else tGet c k) ∧
    (∀ k, k ∈ mapKeys (ks.foldl (fun m k => tRemove m k) c) ↔
      (k ∈ mapKeys c ∧ k ∉ ks)) := by
  intro ks
  induction ks with
  | nil =>
    intro c _ _ _
    refine ⟨by simp, fun k => by simp, fun k => by simp⟩
  | cons k0 rest ih =>
    intro c hnd hsub hcnd
    obtain ⟨hnotin, hnd'⟩ := List.nodup_cons.mp hnd
    have hk0 : k0 ∈ mapKeys c := hsub k0 (List.mem_cons_self k0 rest)
    have hlen1 : (tRemove c k0).length = c.length - 1 := by
      have h1 : (tRemove c k0).length = (mapKeys (tRemove c k0)).length := by
        unfold mapKeys
        rw [List.length_map]
      have h2 : (mapKeys c).length = c.length := by
        unfold mapKeys
        rw [List.length_map]
      rw [h1, mapKeys_tRemove, filter_ne_length k0 (mapKeys c) hcnd hk0, h2]
    have hsub' : ∀ k ∈ rest, k ∈ mapKeys (tRemove c k0) := by
      intro k hk
      rw [mapKeys_tRemove, List.mem_filter]
      exact ⟨hsub k (List.mem_cons_of_mem k0 hk),
        by simp; exact fun habs => hnotin (habs ▸ hk)⟩
    have hcnd' : (mapKeys (tRemove c k0)).Nodup := by
      rw [mapKeys_tRemove]
      exact List.Nodup.filter _ hcnd
    obtain ⟨ihlen, ihget, ihkeys⟩ := ih (tRemove c k0) hnd' hsub' hcnd'
    have hclen : 0 < c.length := by
      have : (mapKeys c).length = c.length := by
        unfold mapKeys; rw [List.length_map]
      have hpos : 0 < (mapKeys c).length := List.length_pos.mpr
        (fun habs => by rw [habs] at hk0; cases hk0)
      omega
    refine ⟨?_, ?_, ?_⟩
    · simp only [List.foldl_cons, ihlen, hlen1, List.length_cons]
      omega
    · intro k
      simp only [List.foldl_cons, ihget k, tGet_tRemove]
      by_cases hkr : k ∈ rest
      · rw [if_pos hkr, if_pos (List.mem_cons_of_mem k0 hkr)]
      · rw [if_neg hkr]
        by_cases hkk : k = k0
        · rw [if_pos hkk, if_pos (List.mem_cons.mpr (Or.inl hkk))]
        · rw [if_neg hkk, if_neg (fun habs => by
            rcases List.mem_cons.mp habs with h1 | h2
            · exact hkk h1
            · exact hkr h2)]
    · intro k
      simp only [List.foldl_cons, ihkeys k, mapKeys_tRemove, List.mem_filter]
      constructor
      · intro ⟨⟨hmem, hne⟩, hnr⟩
        refine ⟨hmem, fun habs => ?_⟩
        rcases List.mem_cons.mp habs with h1 | h2
        · simp only [decide_not, Bool.not_eq_false', decide_eq_true_eq] at hne
          simp only [Bool.not_eq_true', decide_eq_false_iff_not] at hne
          exact hne h1
        · exact hnr h2
      · intro ⟨hmem, hnkr⟩
        refine ⟨⟨hmem, ?_⟩, fun habs => hnkr (List.mem_cons_of_mem k0 habs)⟩
        simp only [decide_not, Bool.not_eq_false', decide_eq_true_eq]
        simp only [Bool.not_eq_true', decide_eq_false_iff_not]
        exact fun habs => hnkr (List.mem_cons.mpr (Or.inl habs))

end TrieDB

namespace TrieDB

/-- C5 counterexample: a cache holding more than `cache_size` entries
(`1 > 0`) for which `flush` does not remove `len - cache_size` entries — it
hits the `rand_remove_list` panic instead, because the index pool has
`keys.len() - 1 = 0` candidates. -/
theorem trie_flush_eviction_cex :
    0 < (TrieState.mk [([1], [2])] [([1], [2])]).cache.length
    ∧ flush ⟨[([1], [2])], [([1], [2])]⟩ 0 (fun _ => 0) = none :=
  ⟨by decide, by decide⟩

/-- C5 (amended): whenever the cache holds more than `cache_size ≥ 1` entries
(with pairwise-distinct keys), `flush` removes exactly
`cache.len() - cache_size` entries, chosen deterministically (given the draw
stream) from the current key set excluding the final key in iteration order —
that key always survives — removes nothing from the persistent store, and a
subsequent `get` on an evicted key returns its value by reloading it from the
store into the cache. -/
theorem trie_flush_eviction (st : TrieState) (cache_size : Nat)
    (draws : Nat → Nat) (hnd : (mapKeys st.cache).Nodup) (hcs : 1 ≤ cache_size)
    (hover : cache_size < st.cache.length) (hinv : cacheStoreInv st) :
    ∃ st', flush st cache_size draws = some st'
      ∧ st'.db = st.db
      ∧ st'.cache.length = cache_size
      ∧ (∀ k v, tGet st'.cache k = some v → tGet st.cache k = some v)
      ∧ (∀ klast, (mapKeys st.cache).getLast? = some klast →
          klast ∈ mapKeys st'.cache)
      ∧ (∀ k v, tGet st.cache k = some v → k ∉ mapKeys st'.cache →
          inner_get st' k = (some v, { st' with cache := tInsert st'.cache k v })) := by
  have hkeyslen : (mapKeys st.cache).length = st.cache.length := by
    unfold mapKeys
    rw [List.length_map]
  obtain ⟨idxs, hgo, hidxs_nd, hidxs_len, hidxs_mem⟩ :=
    randRemoveGo_spec (mapKeys st.cache) draws (st.cache.length - cache_size)
      (List.range ((mapKeys st.cache).length - 1)) ((mapKeys st.cache).length - 1)
      0 [] (List.length_range _).symm (List.nodup_range _) (by omega)
  have hbound : ∀ i ∈ idxs, i < (mapKeys st.cache).length - 1 := by
    intro i hi
    exact List.mem_range.mp (hidxs_mem i hi)
  have hrand : rand_remove_list (mapKeys st.cache) (st.cache.length - cache_size)
      draws = some (idxs.map (fun i => (mapKeys st.cache).getD i [])) := by
    unfold rand_remove_list
    rw [hgo, List.reverse_nil, List.nil_append]
  have hrl_nd : (idxs.map (fun i => (mapKeys st.cache).getD i [])).Nodup := by
    refine (List.nodup_map_iff_inj_on hidxs_nd).mpr ?_
    intro i hi j hj hij
    have hi' : i < (mapKeys st.cache).length := by have := hbound i hi; omega
    have hj' : j < (mapKeys st.cache).length := by have := hbound j hj; omega
    rw [List.getD_eq_getElem _ _ hi', List.getD_eq_getElem _ _ hj'] at hij
    exact (List.Nodup.getElem_inj_iff hnd).mp hij
  have hrl_sub : ∀ k ∈ idxs.map (fun i => (mapKeys st.cache).getD i []),
      k ∈ mapKeys st.cache := by
    intro k hk
    obtain ⟨i, hi, rfl⟩ := List.mem_map.mp hk
    have hi' : i < (mapKeys st.cache).length := by have := hbound i hi; omega
    rw [List.getD_eq_getElem _ _ hi']
    exact List.getElem_mem hi'
  obtain ⟨ihlen, ihget, ihkeys⟩ :=
    foldl_tRemove_spec (idxs.map (fun i => (mapKeys st.cache).getD i []))
      st.cache hrl_nd hrl_sub hnd
  have hrl_len : (idxs.map (fun i => (mapKeys st.cache).getD i [])).length =
      st.cache.length - cache_size := by
    rw [List.length_map, hidxs_len]
  refine ⟨⟨(idxs.map (fun i => (mapKeys st.cache).getD i [])).foldl
    (fun c k => tRemove c k) st.cache, st.db⟩, ?_, rfl, ?_, ?_, ?_, ?_⟩
  · simp only [flush]
    rw [if_neg (by omega), hrand]
  · rw [ihlen, hrl_len]
    omega
  · intro k v hget
    rw [ihget k] at hget
    by_cases hk : k ∈ idxs.map (fun i => (mapKeys st.cache).getD i [])
    · rw [if_pos hk] at hget
      cases hget
    · rw [if_neg hk] at hget
      exact hget
  · intro klast hlast
    rw [List.getLast?_eq_getElem? _] at hlast
    obtain ⟨hlt, hget⟩ := List.getElem?_eq_some.mp hlast
    refine (ihkeys klast).mpr ⟨hget ▸ List.getElem_mem hlt, fun habs => ?_⟩
    obtain ⟨i, hi, hie⟩ := List.mem_map.mp habs
    have hi' : i < (mapKeys st.cache).length := by have := hbound i hi; omega
    rw [List.getD_eq_getElem _ _ hi', ← hget] at hie
    have := (List.Nodup.getElem_inj_iff hnd).mp hie
    have := hbound i hi
    omega
  · intro k v hcache hout
    have hnone : tGet ((idxs.map (fun i => (mapKeys st.cache).getD i [])).foldl
        (fun c k => tRemove c k) st.cache) k = none :=
      (tGet_eq_none_iff _ k).mpr hout
    have hdb : tGet st.db k = some v := hinv k v hcache
    unfold inner_get
    rw [hnone, hdb]

/-- Witness for C5 (amended) on a two-entry cache with `cache_size = 1`. -/
theorem trie_flush_eviction_witness :
    ∃ st', flush ⟨[([1], [10]), ([2], [20])], [([1], [10]), ([2], [20])]⟩ 1
        (fun _ => 0) = some st'
      ∧ st'.db = [([1], [10]), ([2], [20])]
      ∧ st'.cache.length = 1
      ∧ (∀ k v, tGet st'.cache k = some v →
          tGet [([1], [10]), ([2], [20])] k = some v)
      ∧ (∀ klast, (mapKeys [([1], [10]), ([2], [20])]).getLast? = some klast →
          klast ∈ mapKeys st'.cache)
      ∧ (∀ k v, tGet [([1], [10]), ([2], [20])] k = some v →
          k ∉ mapKeys st'.cache →
          inner_get st' k = (some v, { st' with cache := tInsert st'.cache k v })) :=
  trie_flush_eviction ⟨[([1], [10]), ([2], [20])], [([1], [10]), ([2], [20])]⟩ 1
    (fun _ => 0) (by decide) (by decide) (by decide) (fun k v h => h)

end TrieDB
